import Mathlib

/-!
A shallow embedding of `big_numbers.c`, a library for arithmetic on
arbitrarily large non-negative integers stored as doubly linked lists of
32-bit blocks, least significant first.

A `Bnum` is modelled as a `List Nat` of its block values in least-significant
first order (the direction of the `next` pointers); `num_blocks` is the
list's length.  `add_block` appends at the most-significant end, i.e. at the
tail of the list.  Block values are `uint32_t`, so well-formed numbers have
every entry `< 2^32`; this is stated as the predicate `Blocks32` and assumed
where a theorem needs it.
-/

namespace BigNumbers

/-- `2^BLOCK_SIZE`: the base of the positional representation (`BLOCK_SIZE = 32`). -/
def BASE : Nat := 2 ^ 32

/-- The numeric value of a block list (least significant first):
`Σ digit[i] * 2^(32*i)`. -/
def value_of : List Nat → Nat
  | [] => 0
  | d :: ds => d + BASE * value_of ds

/-- All blocks fit in a `uint32_t`. -/
def Blocks32 (l : List Nat) : Prop := ∀ d ∈ l, d < BASE

instance (l : List Nat) : Decidable (Blocks32 l) := by
  unfold Blocks32; infer_instance

/-- Canonical form: no most-significant zero block (the empty list, the
representation of zero, is canonical). -/
def Canonical (l : List Nat) : Prop := l.getLast? ≠ some 0

instance (l : List Nat) : Decidable (Canonical l) := by
  unfold Canonical; infer_instance

/-- The loop of `Bnum_create`: `for (; num > 0; num >>= BLOCK_SIZE)
add_block(big_num, num & BLOCK_MASK);`.  The recursion is on an explicit
fuel so that the definition is structural; `Bnum_create` supplies `num`
itself as fuel, which dominates the number of iterations. -/
def createAux : Nat → Nat → List Nat
  | 0, _ => []
  | fuel + 1, num => if num = 0 then [] else num % BASE :: createAux fuel (num / BASE)

/-- `Bnum_create(uint64_t num)`: builds the block list of `num`,
least-significant block first. -/
def Bnum_create (num : Nat) : List Nat := createAux num num

/-- `Bnum_eq`: lockstep comparison of the two block lists from the least
significant end; leftover blocks on either side mean "not equal". -/
def Bnum_eq : List Nat → List Nat → Bool
  | a :: as, b :: bs => if a ≠ b then false else Bnum_eq as bs
  | [], [] => true
  | _, _ => false

/-- `Bnum_ne`: `!Bnum_eq(a, b)`. -/
def Bnum_ne (a b : List Nat) : Bool := !Bnum_eq a b

/-- The scanning loop of `Bnum_le`, walking both numbers from the most
significant block (so its arguments are the reversed block lists): the
first differing block decides `<`, and if the walk falls off the end the
answer is `1`. -/
def leScan : List Nat → List Nat → Bool
  | a :: as, b :: bs => if a ≠ b then decide (a < b) else leScan as bs
  | _, _ => true

/-- The scanning loop of `Bnum_ge`, most significant block first: the first
differing block decides `>`, and if the walk falls off the end the answer
is `1`. -/
def geScan : List Nat → List Nat → Bool
  | a :: as, b :: bs => if a ≠ b then decide (a > b) else geScan as bs
  | _, _ => true

/-- `Bnum_le`: unequal block counts are decided by the counts alone;
otherwise scan from the most significant block. -/
def Bnum_le (a b : List Nat) : Bool :=
  if a.length ≠ b.length then decide (a.length < b.length)
  else leScan a.reverse b.reverse

/-- `Bnum_ge`: unequal block counts are decided by the counts alone;
otherwise scan from the most significant block. -/
def Bnum_ge (a b : List Nat) : Bool :=
  if a.length ≠ b.length then decide (a.length > b.length)
  else geScan a.reverse b.reverse

/-- `Bnum_lt`: `!Bnum_ge(a, b)`. -/
def Bnum_lt (a b : List Nat) : Bool := !Bnum_ge a b

/-- `Bnum_gt`: `!Bnum_le(a, b)`. -/
def Bnum_gt (a b : List Nat) : Bool := !Bnum_le a b

/-- The second loop of `Bnum_sum`: once one operand is exhausted, propagate
the carry through the remaining blocks of the other.  Note that after this
loop `Bnum_sum` returns immediately: a carry left over at the very end is
discarded, not appended. -/
def sumTail : List Nat → Nat → List Nat
  | [], _ => []
  | d :: ds, carry => (d + carry) % BASE :: sumTail ds ((d + carry) / BASE)

/-- The main loop of `Bnum_sum`: lockstep 64-bit widened addition with carry
while both operands have blocks, then `sumTail` on whichever operand
remains. -/
def sumLoop : List Nat → List Nat → Nat → List Nat
  | da :: as, db :: bs, carry =>
      (da + db + carry) % BASE :: sumLoop as bs ((da + db + carry) / BASE)
  | [], bs, carry => sumTail bs carry
  | as, [], carry => sumTail as carry

/-- `Bnum_sum(a, b)`: the sum's block list, starting from `Bnum_create(0)`
(the empty list) and carry `0`. -/
def Bnum_sum (a b : List Nat) : List Nat := sumLoop a b 0

/-- The inner loop of `Bnum_mult`: one block `da` of `a` times every block
of `b` with 32×32→64 widened multiplication and carry; a carry left after
the last block of `b` is appended (`if (carry) add_block(...)`). -/
def multBlock (da : Nat) : List Nat → Nat → List Nat
  | [], carry => if carry = 0 then [] else [carry]
  | db :: bs, carry => (da * db + carry) % BASE :: multBlock da bs ((da * db + carry) / BASE)

/-- The outer loop of `Bnum_mult`: for each block of `a` build the partial
product (`shift` zero blocks, then `multBlock`), and fold it into the
running `product` with `Bnum_sum`. -/
def multLoop : List Nat → List Nat → Nat → List Nat → List Nat
  | [], _, _, product => product
  | da :: as, b, shift, product =>
      multLoop as b (shift + 1) (Bnum_sum product (List.replicate shift 0 ++ multBlock da b 0))

/-- `Bnum_mult(a, b)`: schoolbook multiplication; the accumulator starts at
`Bnum_create(0)` (the empty list) and the shift at `0`. -/
def Bnum_mult (a b : List Nat) : List Nat := multLoop a b 0 []

/-- The loop of `Bnum_pow`, iterated `k` times: the accumulator starts at
`Bnum_create(1)` and is multiplied by `a` at each step. -/
def powLoop (a : List Nat) : Nat → List Nat
  | 0 => Bnum_create 1
  | k + 1 => Bnum_mult (powLoop a k) a

/-- `Bnum_pow(a, n)` with `n` a native signed `int`: the loop
`for (int i = 0; i < n; i++)` runs `max n 0` times. -/
def Bnum_pow (a : List Nat) (n : Int) : List Nat := powLoop a n.toNat

/-- The value of a block list read most-significant first; used to reason
about the comparison scans, which walk the reversed lists. -/
def msval : List Nat → Nat
  | [] => 0
  | d :: ds => d * BASE ^ ds.length + msval ds

theorem one_lt_BASE : 1 < BASE := by norm_num [BASE]

theorem BASE_pos : 0 < BASE := by norm_num [BASE]

theorem blocks32_cons {d : Nat} {ds : List Nat} (h : Blocks32 (d :: ds)) :
    d < BASE ∧ Blocks32 ds :=
  ⟨h d (by simp), fun x hx => h x (by simp [hx])⟩

/-- A well-formed block list with `n` blocks has value below `BASE ^ n`. -/
theorem value_of_lt {l : List Nat} (h : Blocks32 l) : value_of l < BASE ^ l.length := by
  induction l with
  | nil => simp [value_of]
  | cons d ds ih =>
      obtain ⟨hd, hds⟩ := blocks32_cons h
      have hv := ih hds
      simp only [value_of, List.length_cons, pow_succ]
      calc d + BASE * value_of ds < BASE + BASE * value_of ds := by omega
        _ = BASE * (value_of ds + 1) := by ring
        _ ≤ BASE * BASE ^ ds.length := Nat.mul_le_mul_left _ (by omega)
        _ = BASE ^ ds.length * BASE := by ring

/-- A canonical nonempty block list with `n` blocks has value at least
`BASE ^ (n-1)`. -/
theorem le_value_of_canonical {l : List Nat} (hc : Canonical l) (hne : l ≠ []) :
    BASE ^ (l.length - 1) ≤ value_of l := by
  induction l with
  | nil => exact absurd rfl hne
  | cons d ds ih =>
      cases ds with
      | nil =>
          have hd : d ≠ 0 := by simpa [Canonical] using hc
          simpa [value_of] using Nat.one_le_iff_ne_zero.mpr hd
      | cons e es =>
          have hc' : Canonical (e :: es) := by
            simpa [Canonical, List.getLast?_cons_cons] using hc
          have hv := ih hc' (by simp)
          simp only [List.length_cons, Nat.add_sub_cancel] at hv ⊢
          calc BASE ^ (es.length + 1) = BASE * BASE ^ es.length := by ring
            _ ≤ BASE * value_of (e :: es) := by
                  have := hv
                  simp only [List.length_cons, Nat.add_sub_cancel] at this
                  exact Nat.mul_le_mul_left _ this
            _ ≤ d + BASE * value_of (e :: es) := Nat.le_add_left _ _
            _ = value_of (d :: e :: es) := rfl

theorem msval_append (xs ys : List Nat) :
    msval (xs ++ ys) = msval xs * BASE ^ ys.length + msval ys := by
  induction xs with
  | nil => simp [msval]
  | cons d ds ih =>
      simp only [List.cons_append, msval, ih, List.append_eq, List.length_append, pow_add]
      ring

/-- Reading the reversed list most-significant first gives `value_of`. -/
theorem msval_reverse (l : List Nat) : msval l.reverse = value_of l := by
  induction l with
  | nil => rfl
  | cons d ds ih =>
      simp only [List.reverse_cons, msval_append, ih, msval, List.length_nil,
        pow_zero, mul_one, value_of, List.length_cons, pow_succ]
      ring

theorem msval_lt {l : List Nat} (h : Blocks32 l) : msval l < BASE ^ l.length := by
  induction l with
  | nil => simp [msval]
  | cons d ds ih =>
      obtain ⟨hd, hds⟩ := blocks32_cons h
      have hv := ih hds
      simp only [msval, List.length_cons, pow_succ]
      calc d * BASE ^ ds.length + msval ds < d * BASE ^ ds.length + BASE ^ ds.length := by omega
        _ = (d + 1) * BASE ^ ds.length := by ring
        _ ≤ BASE * BASE ^ ds.length := Nat.mul_le_mul_right _ (by omega)
        _ = BASE ^ ds.length * BASE := by ring

/-- The most-significant-first `≤` scan decides the value comparison for
equal-length, well-formed block lists. -/
theorem leScan_iff {x y : List Nat} (hlen : x.length = y.length)
    (hx : Blocks32 x) (hy : Blocks32 y) :
    (leScan x y = true ↔ msval x ≤ msval y) := by
  induction x generalizing y with
  | nil =>
      cases y with
      | nil => simp [leScan]
      | cons b bs => simp at hlen
  | cons a as ih =>
      cases y with
      | nil => simp at hlen
      | cons b bs =>
          have hlen' : as.length = bs.length := by simpa using hlen
          obtain ⟨ha, has⟩ := blocks32_cons hx
          obtain ⟨hb, hbs⟩ := blocks32_cons hy
          by_cases hab : a = b
          · subst hab
            simp only [leScan, ne_eq, not_true_eq_false, if_neg, reduceIte, msval, hlen']
            rw [ih hlen' has hbs]
            omega
          · have hxlt : msval as < BASE ^ bs.length := hlen' ▸ msval_lt has
            have hylt : msval bs < BASE ^ bs.length := msval_lt hbs
            simp only [leScan, ne_eq, hab, not_false_iff, if_true, reduceIte, msval, hlen',
              decide_eq_true_eq]
            constructor
            · intro hlt
              have : (a + 1) * BASE ^ bs.length ≤ b * BASE ^ bs.length :=
                Nat.mul_le_mul_right _ (by omega)
              nlinarith
            · intro hle
              rcases Nat.lt_or_ge a b with h | h
              · exact h
              · have hba : b < a := lt_of_le_of_ne h (Ne.symm hab)
                have : (b + 1) * BASE ^ bs.length ≤ a * BASE ^ bs.length :=
                  Nat.mul_le_mul_right _ (by omega)
                nlinarith

/-- The `≥` scan is the `≤` scan with its arguments swapped. -/
theorem geScan_eq_leScan (x y : List Nat) : geScan x y = leScan y x := by
  induction x generalizing y with
  | nil => cases y <;> rfl
  | cons a as ih =>
      cases y with
      | nil => rfl
      | cons b bs =>
          by_cases hab : a = b
          · subst hab; simp [geScan, leScan, ih]
          · simp [geScan, leScan, hab, Ne.symm hab]

theorem leScan_refl (x : List Nat) : leScan x x = true := by
  induction x with
  | nil => rfl
  | cons a as ih => simp [leScan, ih]

/-- Totality of the two scans. -/
theorem geScan_of_not_leScan {x y : List Nat} (h : leScan x y = false) :
    geScan x y = true := by
  induction x generalizing y with
  | nil => cases y <;> simp [leScan] at h
  | cons a as ih =>
      cases y with
      | nil => simp [leScan] at h
      | cons b bs =>
          by_cases hab : a = b
          · subst hab
            simp only [leScan, ne_eq, not_true_eq_false, reduceIte] at h
            simpa [geScan] using ih h
          · simp only [leScan, ne_eq, hab, not_false_iff, reduceIte,
              decide_eq_false_iff_not, not_lt] at h
            have : b < a := lt_of_le_of_ne h (Ne.symm hab)
            simp [geScan, hab, this]

/-- Antisymmetry of the two scans on equal-length lists. -/
theorem eq_of_leScan_geScan {x y : List Nat} (hlen : x.length = y.length)
    (hle : leScan x y = true) (hge : geScan x y = true) : x = y := by
  induction x generalizing y with
  | nil =>
      cases y with
      | nil => rfl
      | cons b bs => simp at hlen
  | cons a as ih =>
      cases y with
      | nil => simp at hlen
      | cons b bs =>
          have hlen' : as.length = bs.length := by simpa using hlen
          by_cases hab : a = b
          · subst hab
            simp only [leScan, ne_eq, not_true_eq_false, reduceIte] at hle
            simp only [geScan, ne_eq, not_true_eq_false, reduceIte] at hge
            rw [ih hlen' hle hge]
          · simp only [leScan, ne_eq, hab, not_false_iff, reduceIte,
              decide_eq_true_eq] at hle
            simp only [geScan, ne_eq, hab, not_false_iff, reduceIte,
              decide_eq_true_eq] at hge
            omega

/-- `Bnum_eq` decides list equality. -/
theorem Bnum_eq_iff (a b : List Nat) : Bnum_eq a b = true ↔ a = b := by
  induction a generalizing b with
  | nil => cases b <;> simp [Bnum_eq]
  | cons x xs ih =>
      cases b with
      | nil => simp [Bnum_eq]
      | cons y ys =>
          by_cases hxy : x = y
          · subst hxy; simp [Bnum_eq, ih]
          · simp [Bnum_eq, hxy]

theorem blocks32_reverse {l : List Nat} (h : Blocks32 l) : Blocks32 l.reverse :=
  fun d hd => h d (List.mem_reverse.mp hd)

/-- `Bnum_le` decides the value order for canonical well-formed numbers. -/
theorem Bnum_le_iff {a b : List Nat} (ha : Blocks32 a) (hb : Blocks32 b)
    (hca : Canonical a) (hcb : Canonical b) :
    (Bnum_le a b = true ↔ value_of a ≤ value_of b) := by
  unfold Bnum_le
  by_cases hlen : a.length = b.length
  · rw [if_neg (by simpa using hlen)]
    rw [leScan_iff (by simpa using hlen) (blocks32_reverse ha) (blocks32_reverse hb),
      msval_reverse, msval_reverse]
  · rw [if_pos (by simpa using hlen)]
    rcases Nat.lt_or_ge a.length b.length with h | h
    · have hbne : b ≠ [] := by
        intro hnil; rw [hnil] at h; simp at h
      have h1 : value_of a < BASE ^ a.length := value_of_lt ha
      have h2 : BASE ^ a.length ≤ BASE ^ (b.length - 1) :=
        Nat.pow_le_pow_right (le_of_lt one_lt_BASE) (by omega)
      have h3 : BASE ^ (b.length - 1) ≤ value_of b := le_value_of_canonical hcb hbne
      constructor
      · intro _; omega
      · intro _; simpa using h
    · have hlt : b.length < a.length := lt_of_le_of_ne h (Ne.symm hlen)
      have hane : a ≠ [] := by
        intro hnil; rw [hnil] at hlt; simp at hlt
      have h1 : value_of b < BASE ^ b.length := value_of_lt hb
      have h2 : BASE ^ b.length ≤ BASE ^ (a.length - 1) :=
        Nat.pow_le_pow_right (le_of_lt one_lt_BASE) (by omega)
      have h3 : BASE ^ (a.length - 1) ≤ value_of a := le_value_of_canonical hca hane
      constructor
      · intro hdec
        have := of_decide_eq_true hdec
        omega
      · intro hv
        exact absurd hv (by omega)

/-- `Bnum_ge` is `Bnum_le` with its arguments swapped. -/
theorem Bnum_ge_eq_swap (a b : List Nat) : Bnum_ge a b = Bnum_le b a := by
  unfold Bnum_ge Bnum_le
  by_cases hlen : a.length = b.length
  · rw [if_neg (by simpa using hlen), if_neg (by simp [hlen]), geScan_eq_leScan]
  · rw [if_pos (by simpa using hlen), if_pos (by simpa using (Ne.symm hlen))]

theorem Bnum_le_refl (a : List Nat) : Bnum_le a a = true := by
  unfold Bnum_le
  simp [leScan_refl]

/-- Totality of `Bnum_le`/`Bnum_ge`. -/
theorem Bnum_ge_of_not_le {a b : List Nat} (h : Bnum_le a b = false) :
    Bnum_ge a b = true := by
  unfold Bnum_le at h
  unfold Bnum_ge
  by_cases hlen : a.length = b.length
  · rw [if_neg (by simpa using hlen)] at h
    rw [if_neg (by simpa using hlen), geScan_eq_leScan]
    have := geScan_of_not_leScan h
    rw [geScan_eq_leScan] at this
    exact this
  · rw [if_pos (by simpa using hlen)] at h
    rw [if_pos (by simpa using hlen)]
    simp only [decide_eq_false_iff_not, not_lt] at h
    simp only [decide_eq_true_eq]
    omega

/-- Antisymmetry of `Bnum_le`/`Bnum_ge`: both can only hold on equal lists. -/
theorem eq_of_le_ge {a b : List Nat} (hle : Bnum_le a b = true)
    (hge : Bnum_ge a b = true) : a = b := by
  unfold Bnum_le at hle
  unfold Bnum_ge at hge
  by_cases hlen : a.length = b.length
  · rw [if_neg (by simpa using hlen)] at hle
    rw [if_neg (by simpa using hlen), geScan_eq_leScan] at hge
    have := eq_of_leScan_geScan (x := a.reverse) (y := b.reverse)
      (by simpa using hlen) hle (by rw [geScan_eq_leScan]; exact hge)
    have h2 := congrArg List.reverse this
    simpa using h2
  · rw [if_pos (by simpa using hlen)] at hle
    rw [if_pos (by simpa using hlen)] at hge
    simp only [decide_eq_true_eq] at hle hge
    omega

/-- `createAux` with enough fuel produces the canonical well-formed digit
list of its argument. -/
theorem createAux_spec : ∀ fuel num : Nat, num ≤ fuel →
    value_of (createAux fuel num) = num ∧ Blocks32 (createAux fuel num) ∧
    Canonical (createAux fuel num) ∧ (createAux fuel num = [] ↔ num = 0) := by
  intro fuel
  induction fuel with
  | zero =>
      intro num hnum
      have : num = 0 := Nat.le_zero.mp hnum
      subst this
      refine ⟨rfl, ?_, ?_, by simp [createAux]⟩
      · intro d hd; simp [createAux] at hd
      · simp [createAux, Canonical]
  | succ fuel ih =>
      intro num hnum
      by_cases h0 : num = 0
      · subst h0
        refine ⟨rfl, ?_, ?_, by simp [createAux]⟩
        · intro d hd; simp [createAux] at hd
        · simp [createAux, Canonical]
      · have hstep : createAux (fuel + 1) num = num % BASE :: createAux fuel (num / BASE) := by
          simp [createAux, h0]
        have hdivle : num / BASE ≤ fuel := by
          have := Nat.div_lt_self (Nat.pos_of_ne_zero h0) one_lt_BASE
          omega
        obtain ⟨ihv, ihw, ihc, ihe⟩ := ih (num / BASE) hdivle
        refine ⟨?_, ?_, ?_, ?_⟩
        · rw [hstep]
          simp only [value_of, ihv]
          exact Nat.mod_add_div num BASE
        · rw [hstep]
          intro d hd
          rcases List.mem_cons.mp hd with h | h
          · subst h; exact Nat.mod_lt _ BASE_pos
          · exact ihw d h
        · rw [hstep]
          rcases heq : createAux fuel (num / BASE) with _ | ⟨e, es⟩
          · have hz : num / BASE = 0 := ihe.mp heq
            have hlt : num < BASE := by
              by_contra hge
              have : 0 < num / BASE := Nat.div_pos (Nat.le_of_not_lt hge) BASE_pos
              omega
            have : num % BASE = num := Nat.mod_eq_of_lt hlt
            simp [Canonical, this, h0]
          · have : Canonical (e :: es) := heq ▸ ihc
            simpa [Canonical, List.getLast?_cons_cons] using this
        · rw [hstep]
          simp [h0]

/-- The carry-propagation tail loop of `Bnum_sum` emits exactly one block
per remaining block: any carry left at the end is discarded. -/
theorem sumTail_length (l : List Nat) (carry : Nat) :
    (sumTail l carry).length = l.length := by
  induction l generalizing carry with
  | nil => rfl
  | cons d ds ih => simp [sumTail, ih]

/-- The main loop of `Bnum_sum` emits exactly `max` of the two lengths. -/
theorem sumLoop_length (a b : List Nat) (carry : Nat) :
    (sumLoop a b carry).length = max a.length b.length := by
  induction a generalizing b carry with
  | nil =>
      cases b with
      | nil => simp [sumLoop, sumTail]
      | cons db bs => simp [sumLoop, sumTail_length]
  | cons da as ih =>
      cases b with
      | nil => simp [sumLoop, sumTail_length]
      | cons db bs => simp [sumLoop, ih]; omega

/-- C1: the spec says `add` appends a final carry of 1 as one more
most-significant digit, so that `add(construct(2^32-1), construct(1))` has
digits `[0, 1]` and value `2^32`.  The code drops the final carry: at that
very input `Bnum_sum` returns the single block `[0]`, of value `0`. -/
theorem claim_C1 :
    Bnum_sum (Bnum_create (2 ^ 32 - 1)) (Bnum_create 1) = [0] ∧
    value_of (Bnum_sum (Bnum_create (2 ^ 32 - 1)) (Bnum_create 1)) = 0 := by
  decide

/-- C2: the spec says `multiply(a, b)` always has value
`value(a) * value(b)`.  Because `Bnum_mult` folds partial products with the
carry-dropping `Bnum_sum`, the product of `2^33 - 1` and `2^32 - 1` loses
its top block: its value is not `(2^33-1) * (2^32-1)`. -/
theorem claim_C2 :
    value_of (Bnum_mult (Bnum_create (2 ^ 33 - 1)) (Bnum_create (2 ^ 32 - 1))) ≠
      (2 ^ 33 - 1) * (2 ^ 32 - 1) := by
  decide

/-- C3: the spec says every result is canonical — a nonzero most-significant
block, with zero represented only by the empty list.  The code violates
this: `Bnum_sum` on `construct(2^32-1)` and `construct(1)` returns a
nonempty list whose most-significant block is `0`. -/
theorem claim_C3 :
    (Bnum_sum (Bnum_create (2 ^ 32 - 1)) (Bnum_create 1)).getLast? = some 0 ∧
    Bnum_sum (Bnum_create (2 ^ 32 - 1)) (Bnum_create 1) ≠ [] := by
  decide

/-- C4: for canonical well-formed big integers, `Bnum_le a b` is true
exactly when `value(a) ≤ value(b)` and `Bnum_ge a b` exactly when
`value(a) ≥ value(b)`: differing block counts decide the order outright,
equal counts are decided by the first differing block from the
most-significant end, and no difference means equality. -/
theorem claim_C4 (a b : List Nat) (ha : Blocks32 a) (hb : Blocks32 b)
    (hca : Canonical a) (hcb : Canonical b) :
    (Bnum_le a b = true ↔ value_of a ≤ value_of b) ∧
    (Bnum_ge a b = true ↔ value_of b ≤ value_of a) := by
  refine ⟨Bnum_le_iff ha hb hca hcb, ?_⟩
  rw [Bnum_ge_eq_swap]
  exact Bnum_le_iff hb ha hcb hca

/-- Witness for C4 at `a = [3, 7]`, `b = [5]`. -/
theorem claim_C4_witness :
    (Bnum_le [3, 7] [5] = true ↔ value_of [3, 7] ≤ value_of [5]) ∧
    (Bnum_ge [3, 7] [5] = true ↔ value_of [5] ≤ value_of [3, 7]) :=
  claim_C4 [3, 7] [5] (by decide) (by decide) (by decide) (by decide)

/-- C5: `Bnum_lt` is the boolean negation of `Bnum_ge` and `Bnum_gt` of
`Bnum_le`; for every pair of block lists exactly one of `Bnum_lt`,
`Bnum_eq`, `Bnum_gt` returns true; and `Bnum_le` is true exactly when
`Bnum_lt` or `Bnum_eq` is. -/
theorem claim_C5 (a b : List Nat) :
    Bnum_lt a b = !Bnum_ge a b ∧ Bnum_gt a b = !Bnum_le a b ∧
    (Bnum_lt a b).toNat + (Bnum_eq a b).toNat + (Bnum_gt a b).toNat = 1 ∧
    Bnum_le a b = (Bnum_lt a b || Bnum_eq a b) := by
  have key : (Bnum_le a b = true ∧ Bnum_ge a b = true ∧ Bnum_eq a b = true) ∨
      (Bnum_le a b = true ∧ Bnum_ge a b = false ∧ Bnum_eq a b = false) ∨
      (Bnum_le a b = false ∧ Bnum_ge a b = true ∧ Bnum_eq a b = false) := by
    cases hle : Bnum_le a b with
    | false =>
        have hge := Bnum_ge_of_not_le hle
        have heq : Bnum_eq a b = false := by
          cases heq : Bnum_eq a b with
          | false => rfl
          | true =>
              have hab := (Bnum_eq_iff a b).mp heq
              rw [hab, Bnum_le_refl] at hle
              exact absurd hle (by simp)
        exact Or.inr (Or.inr ⟨rfl, hge, heq⟩)
    | true =>
        cases hge : Bnum_ge a b with
        | false =>
            have heq : Bnum_eq a b = false := by
              cases heq : Bnum_eq a b with
              | false => rfl
              | true =>
                  have hab := (Bnum_eq_iff a b).mp heq
                  rw [hab, Bnum_ge_eq_swap, Bnum_le_refl] at hge
                  exact absurd hge (by simp)
            exact Or.inr (Or.inl ⟨rfl, rfl, heq⟩)
        | true =>
            have hab := eq_of_le_ge hle hge
            exact Or.inl ⟨rfl, rfl, (Bnum_eq_iff a b).mpr hab⟩
  refine ⟨rfl, rfl, ?_, ?_⟩ <;>
    rcases key with ⟨h1, h2, h3⟩ | ⟨h1, h2, h3⟩ | ⟨h1, h2, h3⟩ <;>
      simp [Bnum_lt, Bnum_gt, h1, h2, h3]

/-- C6: for every unsigned 64-bit value `v`, `Bnum_create v` is the
canonical well-formed base-2^32 digit list of `v`, least significant first,
empty exactly for `v = 0`, and its value reconstructs to `v`. -/
theorem claim_C6 (v : Nat) (hv : v < 2 ^ 64) :
    value_of (Bnum_create v) = v ∧ Blocks32 (Bnum_create v) ∧
    Canonical (Bnum_create v) ∧ (Bnum_create v = [] ↔ v = 0) :=
  createAux_spec v v le_rfl

/-- Witness for C6 at `v = 2^40 + 7`. -/
theorem claim_C6_witness :
    value_of (Bnum_create 1099511627783) = 1099511627783 ∧
    Blocks32 (Bnum_create 1099511627783) ∧
    Canonical (Bnum_create 1099511627783) ∧
    (Bnum_create 1099511627783 = [] ↔ 1099511627783 = 0) :=
  claim_C6 1099511627783 (by norm_num)

/-- C7: the spec's exponent law `power(a, m+n) == multiply(power(a,m),
power(a,n))` fails on the code: with `a = construct(2642246 * 2^32)`,
`m = 1`, `n = 2`, computing `a^3` through `Bnum_pow` drops a final carry
in its last `Bnum_sum` fold, while `Bnum_mult` of the two partial powers
appends the carry, so the two sides differ both as block lists and in
value. -/
theorem claim_C7 :
    value_of (Bnum_pow (Bnum_create 11348360157986816) (1 + 2)) ≠
      value_of (Bnum_mult (Bnum_pow (Bnum_create 11348360157986816) 1)
        (Bnum_pow (Bnum_create 11348360157986816) 2)) := by
  decide

/-- C8: `Bnum_pow a n` for any exponent `n ≤ 0` returns the big-integer
value 1 (`Bnum_create 1 = [1]`) for every `a`, with no validation — the
loop body never runs. -/
theorem claim_C8 (a : List Nat) (n : Int) (hn : n ≤ 0) :
    Bnum_pow a n = Bnum_create 1 ∧ value_of (Bnum_pow a n) = 1 := by
  unfold Bnum_pow
  rw [Int.toNat_of_nonpos hn]
  exact ⟨rfl, rfl⟩

/-- Witness for C8 at `a = [7]`, `n = -5`. -/
theorem claim_C8_witness :
    Bnum_pow [7] (-5) = Bnum_create 1 ∧ value_of (Bnum_pow [7] (-5)) = 1 :=
  claim_C8 [7] (-5) (by decide)

/-- C10: `Bnum_sum` always returns exactly `max` of the two block counts —
one block per position of the longer operand, and never an extra
most-significant carry block. -/
theorem claim_C10 (a b : List Nat) :
    (Bnum_sum a b).length = max a.length b.length :=
  sumLoop_length a b 0

end BigNumbers
